import Mathlib

/-!
Verification of the healthcare data-cleaning pipeline (`src/main.py`).

The program manipulates one in-memory table (a pandas DataFrame).  We embed it
shallowly: a `Table` is a list of column names together with a list of rows,
each row a list of cells aligned positionally with the column names.  A cell is
either missing (pandas NaN / NaT / NA), a rational number (pandas numeric
values; the float arithmetic of the source is modelled exactly over ℚ), a
string, or a date (pandas Timestamp, abstracted to its ordinal).

Pandas / numpy / scipy library calls used by the source are modelled cell-wise
from their documented semantics:
  * `pd.to_numeric(errors="coerce")`  → `toNumeric` (failures become `none`);
  * `astype(str)`                     → `cellToStr` (NaN prints as "nan");
  * `.str.strip() / .str.lower()`     → `pyStrip` / `pyLower`;
  * `.str.replace(r"\D", "")`        → `strDigits`;
  * `drop_duplicates()`               → `dedupRows` (first occurrence kept);
  * `Series.median()` (NaN skipped)   → `medianList`;
  * `fillna(m)`                       → `fillCell m`;
  * `scipy.stats.zscore` (ddof = 0)   → see `absZGt3` below;
  * `Series.quantile` (linear)        → `quantileSorted`.
-/

set_option maxRecDepth 4000

/-- One cell of the table.  Missing (pandas NaN/NaT/NA) is a first-class value. -/
inductive Cell where
  | missing
  | num (q : ℚ)
  | str (s : String)
  | date (n : Nat)
deriving DecidableEq, Repr

abbrev Row := List Cell

/-- The in-memory table: named columns over positionally aligned rows. -/
structure Table where
  cols : List String
  rows : List Row
deriving DecidableEq, Repr

/-- Well-formedness: every row has exactly one cell per column. -/
abbrev Table.WF (t : Table) : Prop := ∀ r ∈ t.rows, r.length = t.cols.length

/-- Python `str.strip()`: drop whitespace from both ends. -/
def pyStrip (s : String) : String :=
  ⟨((s.data.dropWhile Char.isWhitespace).reverse.dropWhile Char.isWhitespace).reverse⟩

/-- Python `str.lower()`. -/
def pyLower (s : String) : String := ⟨s.data.map Char.toLower⟩

/-- `.str.replace(r"\D", "", regex=True)`: keep only the digit characters. -/
def strDigits (s : String) : String := ⟨s.data.filter Char.isDigit⟩

/-- `astype(str)` at cell level: NaN renders as "nan"; an integral float prints
with a trailing ".0".  (Non-integral floats and timestamps are abstracted; no
claim depends on their exact rendering.) -/
def cellToStr : Cell → String
  | .missing => "nan"
  | .num q => if q.den = 1 then toString q.num ++ ".0"
              else toString q.num ++ "/" ++ toString q.den
  | .str s => s
  | .date n => "date-" ++ toString n

/-- Numeric value of a digit string. -/
def digitsVal (l : List Char) : Nat := l.foldl (fun a c => a * 10 + (c.toNat - 48)) 0

/-- Python float-literal parsing as used by `pd.to_numeric`: optional sign,
integer part, optional fractional part.  (Exponent notation is abstracted away;
no claim exercises it.)  Anything else fails. -/
def parseNum (s : String) : Option ℚ :=
  let t := ((s.data.dropWhile Char.isWhitespace).reverse.dropWhile Char.isWhitespace).reverse
  let p : ℚ × List Char :=
    match t with
    | '-' :: r => (-1, r)
    | '+' :: r => (1, r)
    | _ => (1, t)
  let ip := p.2.takeWhile Char.isDigit
  let rest := p.2.dropWhile Char.isDigit
  match rest with
  | [] => if ip.isEmpty then none else some (p.1 * (digitsVal ip : ℚ))
  | '.' :: fr =>
    if fr.all Char.isDigit ∧ ¬(ip.isEmpty ∧ fr.isEmpty) then
      some (p.1 * ((digitsVal ip : ℚ) + (digitsVal fr : ℚ) / (10 : ℚ) ^ fr.length))
    else none
  | _ => none

/-- `pd.to_numeric(errors="coerce")` at cell level: numbers pass through,
missing stays missing, strings are parsed (failures become missing).
Datetime cells are abstracted to missing; no claim exercises them. -/
def toNumeric : Cell → Option ℚ
  | .missing => none
  | .num q => some q
  | .str s => parseNum s
  | .date _ => none

/-- First index of a column name in the header, if present. -/
def colIdx : List String → String → Option Nat
  | [], _ => none
  | c :: cs, d => if c = d then some 0 else (colIdx cs d).map (· + 1)

/-- `df[c]`: the column named `c` (first occurrence), empty if absent. -/
def Table.col (t : Table) (c : String) : List Cell :=
  match colIdx t.cols c with
  | none => []
  | some j => t.rows.map (fun r => r.getD j .missing)

/-- `df[c] = df[c].map f`: rewrite the column named `c` cell-wise. -/
def Table.mapCol (t : Table) (c : String) (f : Cell → Cell) : Table :=
  match colIdx t.cols c with
  | none => t
  | some j => ⟨t.cols, t.rows.map (fun r => r.set j (f (r.getD j .missing)))⟩

/-- `drop_duplicates()`: keep the first occurrence of each row value. -/
def dedupAux : List Row → List Row → List Row
  | _, [] => []
  | seen, r :: rs => if r ∈ seen then dedupAux seen rs else r :: dedupAux (r :: seen) rs

def dedupRows (rows : List Row) : List Row := dedupAux [] rows

def dedupTable (t : Table) : Table := ⟨t.cols, dedupRows t.rows⟩

/-- A lenient day-first date reading ("D/M/Y"), standing in for
`pd.to_datetime(format="mixed", dayfirst=True)`.  Only the facts that parsed
output is a date and that parse failures coerce to missing matter to any
claim; the textual formats accepted are abstracted. -/
def parseDateStr (s : String) : Option Nat :=
  match s.data.splitOn '/' with
  | [d, m, y] =>
    if d ≠ [] ∧ m ≠ [] ∧ y ≠ [] ∧ (d ++ m ++ y).all Char.isDigit then
      some (digitsVal y * 10000 + digitsVal m * 100 + digitsVal d)
    else none
  | _ => none

/-- Visit Date rule: `pd.to_datetime(..., errors="coerce")`.  Dates pass
through, strings are parsed leniently, everything unparseable becomes missing. -/
def visitDateRule : Cell → Cell
  | .date n => .date n
  | .str s => match parseDateStr s with | some n => .date n | none => .missing
  | _ => .missing

/-- Age rule: coerce to numeric, then null values outside [0, 120]
(`df.loc[(df["Age"] < 0) | (df["Age"] > 120)] = NA`; NaN compares false, so
missing cells are untouched by the nulling). -/
def ageRule (c : Cell) : Cell :=
  match toNumeric c with
  | none => .missing
  | some q => if q < 0 ∨ 120 < q then .missing else .num q

/-- Gender rule: `astype(str).str.strip().str.lower()`, then
`replace({"m": "male", "f": "female"})`, then null anything outside
{"male", "female"}. -/
def genderRule (c : Cell) : Cell :=
  let s := pyLower (pyStrip (cellToStr c))
  let s2 := if s = "m" then "male" else if s = "f" then "female" else s
  if s2 = "male" ∨ s2 = "female" then .str s2 else .missing

/-- Phone rule: strip every non-digit character, then null strings whose
length is outside [7, 15] (`.str.len().between(7, 15)`, inclusive). -/
def phoneRule (c : Cell) : Cell :=
  let d := strDigits (cellToStr c)
  if 7 ≤ d.data.length ∧ d.data.length ≤ 15 then .str d else .missing

/-- Email rule: cells whose string rendering does not contain "@" become
missing; other cells are left exactly as they were. -/
def emailRule (c : Cell) : Cell :=
  if (cellToStr c).data.contains '@' then c else .missing

/-- Cholesterol nulling: coerce to numeric, then null values outside [50, 400]. -/
def cholNullRule (c : Cell) : Cell :=
  match toNumeric c with
  | none => .missing
  | some q => if q < 50 ∨ 400 < q then .missing else .num q

/-- `fillna(m)` at cell level. -/
def fillCell (m : ℚ) (c : Cell) : Cell := if c = .missing then .num m else c

/-- The numeric values of a column (pandas statistics skip NaN). -/
def numsOf (cells : List Cell) : List ℚ :=
  cells.filterMap (fun c => match c with | .num q => some q | _ => none)

/-- `Series.median()`: sort the non-missing values; middle element for odd
count, mean of the two middle elements for even count; NaN (none) when empty. -/
def medianList (xs : List ℚ) : Option ℚ :=
  let s := xs.insertionSort (· ≤ ·)
  if s.length = 0 then none
  else if s.length % 2 = 1 then some (s.getD (s.length / 2) 0)
  else some ((s.getD (s.length / 2 - 1) 0 + s.getD (s.length / 2) 0) / 2)

/-- The Cholesterol fill step: `df["Cholesterol"] =
df["Cholesterol"].fillna(df["Cholesterol"].median())`.  When every value is
missing the median is NaN and `fillna` is a no-op. -/
def cholesterolFill (t : Table) : Table :=
  match medianList (numsOf (t.col "Cholesterol")) with
  | none => t
  | some m => t.mapCol "Cholesterol" (fillCell m)

/-- `clean_data`: drop duplicate rows, then apply the per-column rules, each
gated on column presence.  The Blood Pressure split of the source is computed
into a local variable and never stored back (dead code), so it has no effect
on the table and is omitted.  The disabled `dropna(subset=...)` line is a
comment in the source. -/
def cleanData (df : Table) : Table :=
  let t0 := dedupTable df
  let t1 := if "Visit Date" ∈ t0.cols then t0.mapCol "Visit Date" visitDateRule else t0
  let t2 := if "Age" ∈ t1.cols then t1.mapCol "Age" ageRule else t1
  let t3 := if "Gender" ∈ t2.cols then t2.mapCol "Gender" genderRule else t2
  let t4 := if "Phone Number" ∈ t3.cols then t3.mapCol "Phone Number" phoneRule else t3
  let t5 := if "Email" ∈ t4.cols then t4.mapCol "Email" emailRule else t4
  let t6 := if "Cholesterol" ∈ t5.cols then
              cholesterolFill (t5.mapCol "Cholesterol" cholNullRule)
            else t5
  t6

/-- Population mean (numpy `mean`); the sum convention `[] ↦ 0/0 = 0` only
arises for empty data, where no score is ever computed. -/
def popMean (xs : List ℚ) : ℚ := xs.sum / xs.length

/-- Population variance (numpy, ddof = 0), the square of the standard
deviation used by `scipy.stats.zscore`. -/
def popVar (xs : List ℚ) : ℚ :=
  (xs.map (fun x => (x - popMean xs) ^ 2)).sum / xs.length

/-- The outlier test `np.abs(stats.zscore(values)) > 3` for one value.
The z-score is (x − mean)/σ with σ = √variance; since σ is irrational we use
the equivalent squared comparison (x − mean)² > 9·variance.  When the variance
is zero the float z-scores are NaN (0/0) and `NaN > 3` is `False` in numpy;
the `popVar xs ≠ 0` conjunct models exactly that. -/
def absZGt3 (xs : List ℚ) (x : ℚ) : Bool :=
  decide (popVar xs ≠ 0 ∧ 9 * popVar xs < (x - popMean xs) ^ 2)

/-- `detect_anomalies(df, column)`: if the column is absent, print a
diagnostic and return an empty DataFrame; otherwise coerce the column to
numeric, drop missing values keeping the original row labels
(`values.index`), score the remaining values, and look the outlier labels
back up in the full table (`df.loc[...]`).  The second component is the
console output. -/
def detectAnomalies (df : Table) (column : String) : Table × List String :=
  match colIdx df.cols column with
  | none => (⟨[], []⟩, ["No column " ++ column ++ " for anomaly detection."])
  | some j =>
    let pairs := df.rows.enum.filterMap
      (fun p => (toNumeric (p.2.getD j .missing)).map (fun v => (p.1, v)))
    let vals := pairs.map Prod.snd
    let idxs := (pairs.filter (fun p => absZGt3 vals p.2)).map Prod.fst
    let anomalies := idxs.filterMap (fun i => df.rows.get? i)
    (⟨df.cols, anomalies⟩, ["Anomalies detected in " ++ column ++ ":"])

/-- The rows the specification says the detector must return: exactly those
rows whose cell in the target column coerces to a number whose absolute
population standard score exceeds 3, each row kept in its original identity
(the row paired with its own cell, not a recomputed position). -/
def anomalousRows (df : Table) (column : String) : List Row :=
  let vals := (df.col column).filterMap toNumeric
  (((df.col column).zip df.rows).filter
    (fun p => ((toNumeric p.1).map (absZGt3 vals)).getD false)).map Prod.snd

/-- `Series.mean()` over the non-missing values; NaN (none) when empty. -/
def seriesMean (xs : List ℚ) : Option ℚ :=
  if xs.isEmpty then none else some (xs.sum / xs.length)

/-- `Series.min()`: NaN when empty, else the least value. -/
def seriesMin : List ℚ → Option ℚ
  | [] => none
  | x :: t => some (t.foldl min x)

/-- `Series.max()`: NaN when empty, else the greatest value. -/
def seriesMax : List ℚ → Option ℚ
  | [] => none
  | x :: t => some (t.foldl max x)

/-- `Series.quantile(q)` with the default linear interpolation between order
statistics, on an already sorted list s: the value at fractional position
q·(n−1), interpolated between the neighbouring order statistics. -/
def quantileSorted (s : List ℚ) (q : ℚ) : Option ℚ :=
  if s.isEmpty then none
  else
    let pos : ℚ := q * ((s.length : ℚ) - 1)
    let i : Nat := pos.floor.toNat
    let lo := s.getD i 0
    let hi := s.getD (i + 1) lo
    some (lo + (pos - (i : ℚ)) * (hi - lo))

def seriesQuantile (xs : List ℚ) (q : ℚ) : Option ℚ :=
  quantileSorted (xs.insertionSort (· ≤ ·)) q

/-- The statistics `summary_statistics` prints for one numeric column. -/
structure ColStats where
  mean : Option ℚ
  median : Option ℚ
  min : Option ℚ
  max : Option ℚ
  q25 : Option ℚ
  q50 : Option ℚ
  q75 : Option ℚ
deriving DecidableEq, Repr

/-- A column of numeric dtype: every cell a number or missing.  (Models
`select_dtypes(include=np.number)`; dtype is recovered from the contents.) -/
def isNumericCol (cells : List Cell) : Bool :=
  cells.all (fun c => match c with | .num _ => true | .missing => true | _ => false)

/-- The statistics printed for one column: each over the non-missing values. -/
def colStatsOf (cells : List Cell) : ColStats :=
  let vals := numsOf cells
  { mean := seriesMean vals
    median := medianList vals
    min := seriesMin vals
    max := seriesMax vals
    q25 := seriesQuantile vals (1/4)
    q50 := seriesQuantile vals (1/2)
    q75 := seriesQuantile vals (3/4) }

/-- `summary_statistics(df)`: for every numeric column, the printed mean,
median, min, max and 25/50/75% quantiles, each computed over the non-missing
values. -/
def summaryStatistics (df : Table) : List (String × ColStats) :=
  (df.cols.filter (fun c => isNumericCol (df.col c))).map
    (fun c => (c, colStatsOf (df.col c)))

/-- pandas median of an already sorted list: the middle element for an odd
count, the mean of the two middle elements for an even count. -/
def medianOfSorted (s : List ℚ) : Option ℚ :=
  if s.length = 0 then none
  else if s.length % 2 = 1 then some (s.getD (s.length / 2) 0)
  else some ((s.getD (s.length / 2 - 1) 0 + s.getD (s.length / 2) 0) / 2)

/-- The five cell-wise column rewrites of `cleanData`, in source order. -/
def ruleSteps (t : Table) : Table :=
  t.mapCol "Visit Date" visitDateRule
    |>.mapCol "Age" ageRule
    |>.mapCol "Gender" genderRule
    |>.mapCol "Phone Number" phoneRule
    |>.mapCol "Email" emailRule

/-- The Cholesterol column transformation as the spec states it: coerce and
null values outside [50, 400], then fill every missing slot with the median
of the values that remain valid after the nulling (no-op when none remain). -/
def cholColumnSpec (cs : List Cell) : List Cell :=
  let nulled := cs.map cholNullRule
  match medianList (numsOf nulled) with
  | none => nulled
  | some m => nulled.map (fillCell m)

/-- A Cholesterol cell that survives the nulling: coerces to a number inside
[50, 400]. -/
def isValidChol (c : Cell) : Bool :=
  match toNumeric c with
  | none => false
  | some q => decide (50 ≤ q ∧ q ≤ 400)

/-- A population-mean-0, population-standard-deviation-1 sample of 100 values
together with one value 10 standard deviations away, as one-column rows. -/
def bigSample : List ℚ :=
  List.replicate 50 1 ++ List.replicate 50 (-1) ++ [10]

def bigTable : Table :=
  ⟨["Cholesterol"],
    List.replicate 50 [Cell.num 1] ++ List.replicate 50 [Cell.num (-1)] ++ [[Cell.num 10]]⟩

/-- Apply a list of per-column rules left to right (a rule table view of the
cleaning stage). -/
def applyRules (rules : List (String × (Cell → Cell))) (t : Table) : Table :=
  rules.foldl (fun u p => u.mapCol p.1 p.2) t

/-- The six cell-wise column rules of `clean_data`, in source order; the
Cholesterol entry is only the nulling, the fill is a separate stage. -/
def cleanRules : List (String × (Cell → Cell)) :=
  [("Visit Date", visitDateRule), ("Age", ageRule), ("Gender", genderRule),
   ("Phone Number", phoneRule), ("Email", emailRule), ("Cholesterol", cholNullRule)]

/-! ### Basic lemmas about column access and per-column rewriting -/

theorem colIdx_eq_none_iff (cs : List String) (d : String) :
    colIdx cs d = none ↔ d ∉ cs := by
  induction cs with
  | nil => simp [colIdx]
  | cons c cs ih =>
    by_cases h : c = d
    · simp [colIdx, h]
    · simp [colIdx, h, Option.map_eq_none', ih, Ne.symm h]

theorem colIdx_get (cs : List String) (d : String) (j : Nat)
    (h : colIdx cs d = some j) : cs.get? j = some d := by
  induction cs generalizing j with
  | nil => simp [colIdx] at h
  | cons c cs ih =>
    by_cases hc : c = d
    · simp [colIdx, hc] at h
      subst h; simp [hc]
    · simp [colIdx, hc, Option.map_eq_some'] at h
      obtain ⟨j0, hj0, rfl⟩ := h
      simpa using ih j0 hj0

theorem colIdx_lt_length (cs : List String) (d : String) (j : Nat)
    (h : colIdx cs d = some j) : j < cs.length := by
  have := colIdx_get cs d j h
  exact List.get?_eq_some.mp this |>.1

theorem colIdx_mem (cs : List String) (d : String) (h : d ∈ cs) :
    ∃ j, colIdx cs d = some j := by
  rcases hc : colIdx cs d with _ | j
  · exact absurd h ((colIdx_eq_none_iff cs d).mp hc)
  · exact ⟨j, rfl⟩

theorem cols_mapCol (t : Table) (c : String) (f : Cell → Cell) :
    (t.mapCol c f).cols = t.cols := by
  unfold Table.mapCol
  rcases colIdx t.cols c with _ | j <;> rfl

theorem rows_length_mapCol (t : Table) (c : String) (f : Cell → Cell) (r : Row)
    (h : r ∈ (t.mapCol c f).rows) : ∃ r0 ∈ t.rows, r.length = r0.length := by
  rcases hj : colIdx t.cols c with _ | j
  · simp only [Table.mapCol, hj] at h
    exact ⟨r, h, rfl⟩
  · simp only [Table.mapCol, hj, List.mem_map] at h
    obtain ⟨r0, hr0, rfl⟩ := h
    exact ⟨r0, hr0, List.length_set r0 j _⟩

theorem wf_mapCol (t : Table) (c : String) (f : Cell → Cell) (hwf : t.WF) :
    (t.mapCol c f).WF := by
  intro r hr
  obtain ⟨r0, hr0, hlen⟩ := rows_length_mapCol t c f r hr
  rw [cols_mapCol, hlen]
  exact hwf r0 hr0

theorem mapCol_of_not_mem (t : Table) (c : String) (f : Cell → Cell)
    (h : c ∉ t.cols) : t.mapCol c f = t := by
  unfold Table.mapCol
  rw [(colIdx_eq_none_iff t.cols c).mpr h]

theorem step_eq_mapCol (t : Table) (c : String) (f : Cell → Cell) :
    (if c ∈ t.cols then t.mapCol c f else t) = t.mapCol c f := by
  by_cases h : c ∈ t.cols
  · rw [if_pos h]
  · rw [if_neg h, mapCol_of_not_mem t c f h]

theorem col_mapCol_self (t : Table) (c : String) (f : Cell → Cell)
    (hwf : t.WF) (hm : c ∈ t.cols) :
    (t.mapCol c f).col c = (t.col c).map f := by
  obtain ⟨j, hj⟩ := colIdx_mem t.cols c hm
  have hjl := colIdx_lt_length t.cols c j hj
  simp only [Table.mapCol, Table.col, hj]
  rw [List.map_map, List.map_map]
  apply List.map_congr_left
  intro r hr
  have hlen : j < r.length := by rw [hwf r hr]; exact hjl
  simp only [Function.comp_apply, List.getD_eq_getElem?_getD,
    List.getElem?_set_self hlen, Option.getD_some]

theorem col_mapCol_ne (t : Table) (c c' : String) (f : Cell → Cell)
    (h : c ≠ c') : (t.mapCol c' f).col c = t.col c := by
  rcases hj' : colIdx t.cols c' with _ | j'
  · rw [mapCol_of_not_mem t c' f ((colIdx_eq_none_iff _ _).mp hj')]
  · simp only [Table.mapCol, hj', Table.col]
    rcases hj : colIdx t.cols c with _ | j
    · simp [hj]
    · have hne : j' ≠ j := by
        intro he
        have h1 := colIdx_get t.cols c j hj
        have h2 := colIdx_get t.cols c' j' hj'
        rw [he, h1] at h2
        exact h (Option.some.inj h2)
      simp only [hj, List.map_map]
      apply List.map_congr_left
      intro r _
      simp only [Function.comp_apply, List.getD_eq_getElem?_getD]
      rw [List.getElem?_set_ne hne]

/-! ### Lemmas about duplicate-row removal -/

theorem dedupAux_subset (seen rows : List Row) (r : Row)
    (h : r ∈ dedupAux seen rows) : r ∈ rows := by
  induction rows generalizing seen with
  | nil => simp [dedupAux] at h
  | cons a rs ih =>
    unfold dedupAux at h
    by_cases ha : a ∈ seen
    · rw [if_pos ha] at h
      exact List.mem_cons_of_mem a (ih seen h)
    · rw [if_neg ha] at h
      rcases List.mem_cons.mp h with he | ht
      · exact he ▸ List.mem_cons_self a rs
      · exact List.mem_cons_of_mem a (ih (a :: seen) ht)

theorem mem_dedupAux (seen rows : List Row) (r : Row)
    (hr : r ∈ rows) (hs : r ∉ seen) : r ∈ dedupAux seen rows := by
  induction rows generalizing seen with
  | nil => simp at hr
  | cons a rs ih =>
    unfold dedupAux
    by_cases ha : a ∈ seen
    · rw [if_pos ha]
      rcases List.mem_cons.mp hr with he | ht
      · exact absurd (he ▸ ha) hs
      · exact ih seen ht hs
    · rw [if_neg ha]
      rcases List.mem_cons.mp hr with he | ht
      · exact he ▸ List.mem_cons_self a _
      · by_cases hra : r = a
        · exact hra ▸ List.mem_cons_self a _
        · refine List.mem_cons_of_mem a (ih (a :: seen) ht ?_)
          simp [hra, hs]

theorem mem_dedupRows (rows : List Row) (r : Row) (hr : r ∈ rows) :
    r ∈ dedupRows rows := mem_dedupAux [] rows r hr (by simp)

theorem wf_dedupTable (t : Table) (hwf : t.WF) : (dedupTable t).WF := by
  intro r hr
  exact hwf r (dedupAux_subset [] t.rows r hr)

theorem dedupAux_eq_self (rows : List Row) (hnd : rows.Nodup) :
    ∀ seen, (∀ r ∈ rows, r ∉ seen) → dedupAux seen rows = rows := by
  induction rows with
  | nil => intro seen _; rfl
  | cons a rs ih =>
    intro seen hdisj
    unfold dedupAux
    rw [if_neg (hdisj a (List.mem_cons_self a rs))]
    have hnd' := (List.nodup_cons.mp hnd).2
    have hna := (List.nodup_cons.mp hnd).1
    rw [ih hnd' (a :: seen) ?_]
    intro r hr
    simp only [List.mem_cons, not_or]
    exact ⟨fun he => hna (he ▸ hr), hdisj r (List.mem_cons_of_mem a hr)⟩

theorem dedupRows_eq_self (rows : List Row) (hnd : rows.Nodup) :
    dedupRows rows = rows := dedupAux_eq_self rows hnd [] (by simp)

theorem mem_col_dedupTable (t : Table) (c : String) (x : Cell)
    (hx : x ∈ t.col c) : x ∈ (dedupTable t).col c := by
  rcases hj : colIdx t.cols c with _ | j
  · simp only [Table.col, hj] at hx
    simp at hx
  · simp only [Table.col, dedupTable, hj, List.mem_map] at hx ⊢
    obtain ⟨r, hr, rfl⟩ := hx
    exact ⟨r, mem_dedupRows t.rows r hr, rfl⟩

/-! ### Decomposing `cleanData` into its per-column steps -/

theorem cols_cholesterolFill (t : Table) : (cholesterolFill t).cols = t.cols := by
  unfold cholesterolFill
  rcases medianList (numsOf (t.col "Cholesterol")) with _ | m
  · rfl
  · exact cols_mapCol t "Cholesterol" (fillCell m)

theorem wf_cholesterolFill (t : Table) (hwf : t.WF) : (cholesterolFill t).WF := by
  unfold cholesterolFill
  rcases medianList (numsOf (t.col "Cholesterol")) with _ | m
  · exact hwf
  · exact wf_mapCol t "Cholesterol" (fillCell m) hwf

theorem col_cholesterolFill_ne (t : Table) (c : String) (h : c ≠ "Cholesterol") :
    (cholesterolFill t).col c = t.col c := by
  unfold cholesterolFill
  rcases medianList (numsOf (t.col "Cholesterol")) with _ | m
  · rfl
  · exact col_mapCol_ne t c "Cholesterol" (fillCell m) h

theorem cholStep_eq (t : Table) :
    (if "Cholesterol" ∈ t.cols then cholesterolFill (t.mapCol "Cholesterol" cholNullRule) else t)
      = cholesterolFill (t.mapCol "Cholesterol" cholNullRule) := by
  by_cases h : "Cholesterol" ∈ t.cols
  · rw [if_pos h]
  · rw [if_neg h, mapCol_of_not_mem t _ _ h]
    have hc : t.col "Cholesterol" = [] := by
      simp [Table.col, (colIdx_eq_none_iff _ _).mpr h]
    unfold cholesterolFill
    rw [hc]
    rfl

/-- `cleanData` written as an unconditional pipeline: dedup, then the five
cell-wise column rewrites, then the Cholesterol null-and-fill step (each
rewrite is a no-op on an absent column). -/
theorem cleanData_pipeline (df : Table) :
    cleanData df =
      cholesterolFill ((ruleSteps (dedupTable df)).mapCol "Cholesterol" cholNullRule) := by
  simp only [cleanData, step_eq_mapCol, cholStep_eq, ruleSteps]

theorem cols_ruleSteps (t : Table) : (ruleSteps t).cols = t.cols := by
  simp only [ruleSteps, cols_mapCol]

theorem wf_ruleSteps (t : Table) (hwf : t.WF) : (ruleSteps t).WF := by
  simp only [ruleSteps]
  exact wf_mapCol _ _ _ (wf_mapCol _ _ _ (wf_mapCol _ _ _ (wf_mapCol _ _ _
    (wf_mapCol _ _ _ hwf))))

theorem col_ruleSteps_chol (t : Table) :
    (ruleSteps t).col "Cholesterol" = t.col "Cholesterol" := by
  simp only [ruleSteps]
  rw [col_mapCol_ne _ _ _ _ (by decide), col_mapCol_ne _ _ _ _ (by decide),
    col_mapCol_ne _ _ _ _ (by decide), col_mapCol_ne _ _ _ _ (by decide),
    col_mapCol_ne _ _ _ _ (by decide)]

theorem cols_cleanData (df : Table) : (cleanData df).cols = df.cols := by
  rw [cleanData_pipeline, cols_cholesterolFill, cols_mapCol, cols_ruleSteps]
  rfl

theorem col_cleanData_age (t : Table) (hwf : t.WF) (hm : "Age" ∈ t.cols) :
    (cleanData t).col "Age" = ((dedupTable t).col "Age").map ageRule := by
  have h0 : (dedupTable t).WF := wf_dedupTable t hwf
  have h1 := wf_mapCol (dedupTable t) "Visit Date" visitDateRule h0
  have hm1 : "Age" ∈ ((dedupTable t).mapCol "Visit Date" visitDateRule).cols := by
    rw [cols_mapCol]; exact hm
  rw [cleanData_pipeline, col_cholesterolFill_ne _ _ (by decide),
    col_mapCol_ne _ _ _ _ (by decide)]
  simp only [ruleSteps]
  rw [col_mapCol_ne _ _ _ _ (by decide), col_mapCol_ne _ _ _ _ (by decide),
    col_mapCol_ne _ _ _ _ (by decide), col_mapCol_self _ _ _ h1 hm1,
    col_mapCol_ne _ _ _ _ (by decide)]

theorem col_cleanData_gender (t : Table) (hwf : t.WF) (hm : "Gender" ∈ t.cols) :
    (cleanData t).col "Gender" = ((dedupTable t).col "Gender").map genderRule := by
  have h0 : (dedupTable t).WF := wf_dedupTable t hwf
  have h1 := wf_mapCol (dedupTable t) "Visit Date" visitDateRule h0
  have h2 := wf_mapCol _ "Age" ageRule h1
  have hm2 : "Gender" ∈
      (((dedupTable t).mapCol "Visit Date" visitDateRule).mapCol "Age" ageRule).cols := by
    rw [cols_mapCol, cols_mapCol]; exact hm
  rw [cleanData_pipeline, col_cholesterolFill_ne _ _ (by decide),
    col_mapCol_ne _ _ _ _ (by decide)]
  simp only [ruleSteps]
  rw [col_mapCol_ne _ _ _ _ (by decide), col_mapCol_ne _ _ _ _ (by decide),
    col_mapCol_self _ _ _ h2 hm2, col_mapCol_ne _ _ _ _ (by decide),
    col_mapCol_ne _ _ _ _ (by decide)]

theorem col_cleanData_phone (t : Table) (hwf : t.WF) (hm : "Phone Number" ∈ t.cols) :
    (cleanData t).col "Phone Number" = ((dedupTable t).col "Phone Number").map phoneRule := by
  have h0 : (dedupTable t).WF := wf_dedupTable t hwf
  have h1 := wf_mapCol (dedupTable t) "Visit Date" visitDateRule h0
  have h2 := wf_mapCol _ "Age" ageRule h1
  have h3 := wf_mapCol _ "Gender" genderRule h2
  have hm3 : "Phone Number" ∈
      ((((dedupTable t).mapCol "Visit Date" visitDateRule).mapCol "Age" ageRule).mapCol
        "Gender" genderRule).cols := by
    rw [cols_mapCol, cols_mapCol, cols_mapCol]; exact hm
  rw [cleanData_pipeline, col_cholesterolFill_ne _ _ (by decide),
    col_mapCol_ne _ _ _ _ (by decide)]
  simp only [ruleSteps]
  rw [col_mapCol_ne _ _ _ _ (by decide), col_mapCol_self _ _ _ h3 hm3,
    col_mapCol_ne _ _ _ _ (by decide), col_mapCol_ne _ _ _ _ (by decide),
    col_mapCol_ne _ _ _ _ (by decide)]

theorem col_cleanData_email (t : Table) (hwf : t.WF) (hm : "Email" ∈ t.cols) :
    (cleanData t).col "Email" = ((dedupTable t).col "Email").map emailRule := by
  have h0 : (dedupTable t).WF := wf_dedupTable t hwf
  have h1 := wf_mapCol (dedupTable t) "Visit Date" visitDateRule h0
  have h2 := wf_mapCol _ "Age" ageRule h1
  have h3 := wf_mapCol _ "Gender" genderRule h2
  have h4 := wf_mapCol _ "Phone Number" phoneRule h3
  have hm4 : "Email" ∈
      (((((dedupTable t).mapCol "Visit Date" visitDateRule).mapCol "Age" ageRule).mapCol
        "Gender" genderRule).mapCol "Phone Number" phoneRule).cols := by
    rw [cols_mapCol, cols_mapCol, cols_mapCol, cols_mapCol]; exact hm
  rw [cleanData_pipeline, col_cholesterolFill_ne _ _ (by decide),
    col_mapCol_ne _ _ _ _ (by decide)]
  simp only [ruleSteps]
  rw [col_mapCol_self _ _ _ h4 hm4, col_mapCol_ne _ _ _ _ (by decide),
    col_mapCol_ne _ _ _ _ (by decide), col_mapCol_ne _ _ _ _ (by decide),
    col_mapCol_ne _ _ _ _ (by decide)]

theorem col_cleanData_chol (t : Table) (hwf : t.WF) (hm : "Cholesterol" ∈ t.cols) :
    (cleanData t).col "Cholesterol" = cholColumnSpec ((dedupTable t).col "Cholesterol") := by
  have h0 : (dedupTable t).WF := wf_dedupTable t hwf
  have h5 : (ruleSteps (dedupTable t)).WF := wf_ruleSteps _ h0
  have h6 := wf_mapCol (ruleSteps (dedupTable t)) "Cholesterol" cholNullRule h5
  have hm5 : "Cholesterol" ∈ (ruleSteps (dedupTable t)).cols := by
    rw [cols_ruleSteps]; exact hm
  have hcol6 : ((ruleSteps (dedupTable t)).mapCol "Cholesterol" cholNullRule).col "Cholesterol"
      = ((dedupTable t).col "Cholesterol").map cholNullRule := by
    rw [col_mapCol_self _ _ _ h5 hm5, col_ruleSteps_chol]
  rw [cleanData_pipeline]
  unfold cholesterolFill cholColumnSpec
  rw [hcol6]
  rcases hmed : medianList (numsOf (((dedupTable t).col "Cholesterol").map cholNullRule))
      with _ | m
  · simp only [hmed]
    exact hcol6
  · have hm6 : "Cholesterol" ∈
        ((ruleSteps (dedupTable t)).mapCol "Cholesterol" cholNullRule).cols := by
      rw [cols_mapCol]; exact hm5
    simp only [hmed]
    rw [col_mapCol_self _ _ _ h6 hm6, hcol6]

/-! ### The anomaly detector returns exactly the outlier rows, in place -/

theorem zip_map_left_self {α β : Type} (f : α → β) (l : List α) :
    (l.map f).zip l = l.map (fun a => (f a, a)) := by
  induction l with
  | nil => rfl
  | cons a t ih => simp [ih]

theorem enumFrom_filterMap_snd {α β : Type} (g : α → Option β) (l : List α) :
    ∀ n : Nat,
      ((List.enumFrom n l).filterMap (fun p => (g p.2).map (fun v => (p.1, v)))).map Prod.snd
        = l.filterMap g := by
  induction l with
  | nil => intro n; rfl
  | cons a t ih =>
    intro n
    rw [List.enumFrom_cons]
    rcases hg : g a with _ | v
    · simp only [List.filterMap_cons, hg, Option.map_none']
      exact ih (n + 1)
    · simp only [List.filterMap_cons, hg, Option.map_some', List.map_cons]
      rw [ih (n + 1)]

theorem detect_lookup (full : List Row) (g : Row → Option ℚ) (q : ℚ → Bool) :
    ∀ (l : List Row) (n : Nat), (∀ k, full.get? (n + k) = l.get? k) →
      ((((List.enumFrom n l).filterMap
          (fun p => (g p.2).map (fun v => (p.1, v)))).filter
            (fun p => q p.2)).map Prod.fst).filterMap (fun i => full.get? i)
        = l.filter (fun r => ((g r).map q).getD false) := by
  intro l
  induction l with
  | nil => intro n _; rfl
  | cons a t ih =>
    intro n hfull
    have hshift : ∀ k, full.get? (n + 1 + k) = t.get? k := by
      intro k
      have h1 := hfull (k + 1)
      rw [List.get?_cons_succ] at h1
      have h2 : n + 1 + k = n + (k + 1) := by omega
      rw [h2]
      exact h1
    have hhead : full.get? n = some a := by
      have := hfull 0
      simpa using this
    rw [List.enumFrom_cons]
    rcases hg : g a with _ | v
    · simp only [List.filterMap_cons, hg, Option.map_none', Option.map_some']
      rw [List.filter_cons_of_neg (by simp [hg])]
      exact ih (n + 1) hshift
    · simp only [List.filterMap_cons, hg, Option.map_some', List.filter_cons]
      cases hq : q v with
      | false =>
        simp only [hq, Option.getD_some, Option.map_some', Bool.false_eq_true, if_false]
        exact ih (n + 1) hshift
      | true =>
        simp only [hq, Option.getD_some, Option.map_some', if_true, List.map_cons,
          List.filterMap_cons, hhead]
        rw [ih (n + 1) hshift]

/-- What the detector computes on a present column, stated without index
bookkeeping: it keeps exactly the rows whose cell scores as an outlier, and
keeps all the columns. -/
theorem detectAnomalies_spec (df : Table) (column : String) (hm : column ∈ df.cols) :
    (detectAnomalies df column).1.cols = df.cols ∧
      (detectAnomalies df column).1.rows = anomalousRows df column := by
  obtain ⟨j, hj⟩ := colIdx_mem df.cols column hm
  have hcol : df.col column = df.rows.map (fun r => r.getD j .missing) := by
    simp [Table.col, hj]
  refine ⟨by simp [detectAnomalies, hj], ?_⟩
  simp only [detectAnomalies, hj]
  have hvals : ((df.rows.enum.filterMap
      (fun p => (toNumeric (p.2.getD j .missing)).map (fun v => (p.1, v)))).map Prod.snd)
      = df.rows.filterMap (fun r => toNumeric (r.getD j .missing)) := by
    simp only [List.enum]
    exact enumFrom_filterMap_snd (fun r => toNumeric (r.getD j .missing)) df.rows 0
  simp only [List.enum] at hvals ⊢
  simp only [hvals]
  rw [detect_lookup df.rows (fun r => toNumeric (r.getD j .missing))
      (absZGt3 (df.rows.filterMap (fun r => toNumeric (r.getD j .missing)))) df.rows 0
      (fun k => by simp)]
  simp only [anomalousRows, hcol, zip_map_left_self, List.filter_map, List.map_map,
    List.filterMap_map, Function.comp_def]
  rw [List.map_id']

/-! ### Idempotence of the per-column cell rules -/

theorem visitDateRule_idem (c : Cell) : visitDateRule (visitDateRule c) = visitDateRule c := by
  cases c with
  | missing => rfl
  | num q => rfl
  | date n => rfl
  | str s =>
    rcases h : parseDateStr s with _ | n <;> simp only [visitDateRule, h]

theorem ageRule_out (c : Cell) :
    ageRule c = .missing ∨ ∃ q : ℚ, ageRule c = .num q ∧ ¬(q < 0 ∨ 120 < q) := by
  rcases h : toNumeric c with _ | q
  · left; simp only [ageRule, h]
  · by_cases hq : q < 0 ∨ 120 < q
    · left; simp only [ageRule, h]; rw [if_pos hq]
    · right; exact ⟨q, by simp only [ageRule, h]; rw [if_neg hq], hq⟩

theorem ageRule_idem (c : Cell) : ageRule (ageRule c) = ageRule c := by
  rcases ageRule_out c with h | ⟨q, h, hq⟩
  · rw [h]; rfl
  · rw [h]
    simp only [ageRule, toNumeric]
    rw [if_neg hq]

theorem genderRule_out (c : Cell) :
    genderRule c = .missing ∨ genderRule c = .str "male" ∨ genderRule c = .str "female" := by
  simp only [genderRule]
  split_ifs <;> simp_all

theorem genderRule_idem (c : Cell) : genderRule (genderRule c) = genderRule c := by
  rcases genderRule_out c with h | h | h <;> rw [h] <;> decide

theorem strDigits_idem (s : String) : strDigits (strDigits s) = strDigits s := by
  simp only [strDigits, List.filter_filter, Bool.and_self]

theorem phoneRule_idem (c : Cell) : phoneRule (phoneRule c) = phoneRule c := by
  by_cases h : 7 ≤ (strDigits (cellToStr c)).data.length ∧
      (strDigits (cellToStr c)).data.length ≤ 15
  · have h1 : phoneRule c = .str (strDigits (cellToStr c)) := by
      simp only [phoneRule]; rw [if_pos h]
    rw [h1]
    set d := strDigits (cellToStr c) with hd
    have hcell : cellToStr (.str d) = d := rfl
    have hdd : strDigits d = d := by rw [hd]; exact strDigits_idem _
    simp only [phoneRule, hcell, hdd]
    rw [if_pos h]
  · have h1 : phoneRule c = .missing := by
      simp only [phoneRule]; rw [if_neg h]
    rw [h1]
    decide

theorem emailRule_idem (c : Cell) : emailRule (emailRule c) = emailRule c := by
  by_cases h : (cellToStr c).data.contains '@' = true
  · have h1 : emailRule c = c := by simp only [emailRule]; rw [if_pos h]
    rw [h1]
    exact h1
  · have h1 : emailRule c = .missing := by simp only [emailRule]; rw [if_neg h]
    rw [h1]
    decide

theorem cholNullRule_out (c : Cell) :
    cholNullRule c = .missing ∨ ∃ q : ℚ, cholNullRule c = .num q ∧ ¬(q < 50 ∨ 400 < q) := by
  rcases h : toNumeric c with _ | q
  · left; simp only [cholNullRule, h]
  · by_cases hq : q < 50 ∨ 400 < q
    · left; simp only [cholNullRule, h]; rw [if_pos hq]
    · right; exact ⟨q, by simp only [cholNullRule, h]; rw [if_neg hq], hq⟩

theorem cholNullRule_idem (c : Cell) : cholNullRule (cholNullRule c) = cholNullRule c := by
  rcases cholNullRule_out c with h | ⟨q, h, hq⟩
  · rw [h]; rfl
  · rw [h]
    simp only [cholNullRule, toNumeric]
    rw [if_neg hq]

/-! ### After one pass, Cholesterol has no missing values unless all invalid -/

theorem cholNullRule_of_valid (c : Cell) (h : isValidChol c = true) :
    ∃ q : ℚ, cholNullRule c = .num q := by
  rcases ht : toNumeric c with _ | q
  · simp [isValidChol, ht] at h
  · simp only [isValidChol, ht, decide_eq_true_eq] at h
    refine ⟨q, ?_⟩
    simp only [cholNullRule, ht]
    rw [if_neg]
    push_neg
    exact ⟨h.1, h.2⟩

theorem fillCell_ne_missing (m : ℚ) (c : Cell) : fillCell m c ≠ .missing := by
  by_cases h : c = .missing
  · simp [fillCell, h]
  · simp [fillCell, h]

theorem medianList_of_ne_nil (xs : List ℚ) (h : xs ≠ []) :
    ∃ m, medianList xs = some m := by
  have hne : xs.length ≠ 0 := by
    intro h0
    exact h (List.length_eq_zero.mp h0)
  simp only [medianList, List.length_insertionSort]
  rw [if_neg hne]
  by_cases hp : xs.length % 2 = 1
  · rw [if_pos hp]
    exact ⟨_, rfl⟩
  · rw [if_neg hp]
    exact ⟨_, rfl⟩

theorem cleanData_chol_no_missing (t : Table) (hwf : t.WF) (hm : "Cholesterol" ∈ t.cols)
    (hex : ∃ x ∈ t.col "Cholesterol", isValidChol x = true) :
    ∀ x ∈ (cleanData t).col "Cholesterol", x ≠ .missing := by
  obtain ⟨x0, hx0, hv0⟩ := hex
  have hx0d : x0 ∈ (dedupTable t).col "Cholesterol" := mem_col_dedupTable t _ x0 hx0
  obtain ⟨q0, hq0⟩ := cholNullRule_of_valid x0 hv0
  have hq0m : q0 ∈ numsOf (((dedupTable t).col "Cholesterol").map cholNullRule) := by
    apply List.mem_filterMap.mpr
    exact ⟨.num q0, List.mem_map.mpr ⟨x0, hx0d, hq0⟩, rfl⟩
  have hnn : numsOf (((dedupTable t).col "Cholesterol").map cholNullRule) ≠ [] :=
    List.ne_nil_of_mem hq0m
  obtain ⟨m, hmed⟩ := medianList_of_ne_nil _ hnn
  rw [col_cleanData_chol t hwf hm]
  unfold cholColumnSpec
  simp only [hmed]
  intro x hx
  obtain ⟨y, _, rfl⟩ := List.mem_map.mp hx
  exact fillCell_ne_missing m y

/-! ### Zero-variance columns yield no anomalies -/

theorem popVar_of_const (xs : List ℚ) (h : ∀ x ∈ xs, ∀ y ∈ xs, x = y) :
    popVar xs = 0 := by
  cases xs with
  | nil => simp [popVar]
  | cons a t =>
    have hall : ∀ x ∈ a :: t, x = a :=
      fun x hx => h x hx a (List.mem_cons_self a t)
    have hlen : ((a :: t).length : ℚ) ≠ 0 := by
      have : (0 : ℚ) < ((a :: t).length : ℚ) := by
        exact_mod_cast List.length_pos.mpr (List.cons_ne_nil a t)
      exact ne_of_gt this
    have hmean : popMean (a :: t) = a := by
      unfold popMean
      rw [List.sum_eq_card_nsmul (a :: t) a hall, nsmul_eq_mul]
      exact mul_div_cancel_left₀ a hlen
    unfold popVar
    rw [List.sum_eq_zero, zero_div]
    intro x hx
    obtain ⟨y, hy, rfl⟩ := List.mem_map.mp hx
    rw [hmean, hall y hy]
    ring

theorem absZGt3_of_var_zero (xs : List ℚ) (h : popVar xs = 0) (v : ℚ) :
    absZGt3 xs v = false := by
  unfold absZGt3
  rw [decide_eq_false_iff_not]
  intro hc
  exact hc.1 h

theorem anomalousRows_nil_of_const (df : Table) (column : String)
    (h : ∀ x ∈ (df.col column).filterMap toNumeric,
         ∀ y ∈ (df.col column).filterMap toNumeric, x = y) :
    anomalousRows df column = [] := by
  have hvar : popVar ((df.col column).filterMap toNumeric) = 0 := popVar_of_const _ h
  unfold anomalousRows
  have hfil : (((df.col column).zip df.rows).filter
      (fun p => ((toNumeric p.1).map
        (absZGt3 ((df.col column).filterMap toNumeric))).getD false)) = [] := by
    apply List.filter_eq_nil_iff.mpr
    intro p _
    rcases ht : toNumeric p.1 with _ | v
    · simp [ht]
    · simp [ht, absZGt3_of_var_zero _ hvar v]
  simp only [hfil, List.map_nil]

/-! ### Summary-statistics facts -/

theorem foldl_min_mem : ∀ (t : List ℚ) (x : ℚ), t.foldl min x ∈ x :: t := by
  intro t
  induction t with
  | nil => intro x; simp
  | cons a r ih =>
    intro x
    simp only [List.foldl_cons]
    rcases List.mem_cons.mp (ih (min x a)) with h | h
    · rcases min_choice x a with hm | hm
      · rw [h, hm]; exact List.mem_cons_self _ _
      · rw [h, hm]
        exact List.mem_cons_of_mem _ (List.mem_cons_self _ _)
    · exact List.mem_cons_of_mem _ (List.mem_cons_of_mem _ h)

theorem foldl_min_le : ∀ (t : List ℚ) (x y : ℚ), y ∈ x :: t → t.foldl min x ≤ y := by
  intro t
  induction t with
  | nil =>
    intro x y hy
    simp only [List.foldl_nil]
    rcases List.mem_cons.mp hy with rfl | h
    · exact le_refl _
    · simp at h
  | cons a r ih =>
    intro x y hy
    simp only [List.foldl_cons]
    have hbase : r.foldl min (min x a) ≤ min x a :=
      ih (min x a) (min x a) (List.mem_cons_self _ _)
    rcases List.mem_cons.mp hy with rfl | h
    · exact le_trans hbase (min_le_left _ _)
    · rcases List.mem_cons.mp h with rfl | h2
      · exact le_trans hbase (min_le_right _ _)
      · exact ih (min x a) y (List.mem_cons_of_mem _ h2)

theorem foldl_max_mem : ∀ (t : List ℚ) (x : ℚ), t.foldl max x ∈ x :: t := by
  intro t
  induction t with
  | nil => intro x; simp
  | cons a r ih =>
    intro x
    simp only [List.foldl_cons]
    rcases List.mem_cons.mp (ih (max x a)) with h | h
    · rcases max_choice x a with hm | hm
      · rw [h, hm]; exact List.mem_cons_self _ _
      · rw [h, hm]
        exact List.mem_cons_of_mem _ (List.mem_cons_self _ _)
    · exact List.mem_cons_of_mem _ (List.mem_cons_of_mem _ h)

theorem le_foldl_max : ∀ (t : List ℚ) (x y : ℚ), y ∈ x :: t → y ≤ t.foldl max x := by
  intro t
  induction t with
  | nil =>
    intro x y hy
    simp only [List.foldl_nil]
    rcases List.mem_cons.mp hy with rfl | h
    · exact le_refl _
    · simp at h
  | cons a r ih =>
    intro x y hy
    simp only [List.foldl_cons]
    have hbase : max x a ≤ r.foldl max (max x a) :=
      ih (max x a) (max x a) (List.mem_cons_self _ _)
    rcases List.mem_cons.mp hy with rfl | h
    · exact le_trans (le_max_left _ _) hbase
    · rcases List.mem_cons.mp h with rfl | h2
      · exact le_trans (le_max_right _ _) hbase
      · exact ih (max x a) y (List.mem_cons_of_mem _ h2)

theorem lookup_map_self {β : Type} (g : String → β) :
    ∀ (l : List String) (c : String), c ∈ l →
      (l.map (fun x => (x, g x))).lookup c = some (g c) := by
  intro l
  induction l with
  | nil => intro c hc; simp at hc
  | cons a r ih =>
    intro c hc
    rcases List.mem_cons.mp hc with rfl | h
    · simp [List.lookup_cons]
    · by_cases hca : c = a
      · subst hca; simp [List.lookup_cons]
      · simp only [List.map_cons, List.lookup_cons]
        have : (c == a) = false := by
          simp [hca]
        rw [this]
        exact ih c h

/-! ### Evaluating the detector on the 100-plus-outlier sample -/

theorem bigTable_col :
    bigTable.col "Cholesterol"
      = List.replicate 50 (Cell.num 1) ++ List.replicate 50 (Cell.num (-1))
          ++ [Cell.num 10] := by
  have hj : colIdx ["Cholesterol"] "Cholesterol" = some 0 := rfl
  simp only [Table.col, hj, bigTable, List.map_append, List.map_replicate, List.map_cons,
    List.map_nil, List.getD_cons_zero]

theorem bigTable_vals :
    (bigTable.col "Cholesterol").filterMap toNumeric = bigSample := by
  rw [bigTable_col]
  simp only [List.filterMap_append, List.filterMap_replicate, toNumeric, bigSample,
    List.filterMap_cons, List.filterMap_nil]

theorem bigSample_mean : popMean bigSample = 10 / 101 := by
  unfold popMean bigSample
  simp only [List.sum_append, List.sum_replicate, List.length_append, List.length_replicate,
    List.sum_cons, List.sum_nil, List.length_cons, List.length_nil, nsmul_eq_mul]
  norm_num

theorem bigSample_var : popVar bigSample = 20100 / 10201 := by
  unfold popVar
  simp only [bigSample_mean]
  unfold bigSample
  simp only [List.map_append, List.map_replicate, List.map_cons, List.map_nil,
    List.sum_append, List.sum_replicate, List.sum_cons, List.sum_nil,
    List.length_append, List.length_replicate, List.length_cons, List.length_nil,
    nsmul_eq_mul]
  norm_num

theorem bigSample_z_one : absZGt3 bigSample 1 = false := by
  unfold absZGt3
  rw [bigSample_var, bigSample_mean, decide_eq_false_iff_not]
  norm_num

theorem bigSample_z_negone : absZGt3 bigSample (-1) = false := by
  unfold absZGt3
  rw [bigSample_var, bigSample_mean, decide_eq_false_iff_not]
  norm_num

theorem bigSample_z_ten : absZGt3 bigSample 10 = true := by
  unfold absZGt3
  rw [bigSample_var, bigSample_mean, decide_eq_true_eq]
  norm_num

theorem bigTable_anomalousRows :
    anomalousRows bigTable "Cholesterol" = [[Cell.num 10]] := by
  unfold anomalousRows
  simp only [bigTable_vals]
  rw [bigTable_col]
  have hrows : bigTable.rows
      = List.replicate 50 [Cell.num 1] ++ List.replicate 50 [Cell.num (-1)]
          ++ [[Cell.num 10]] := rfl
  rw [hrows]
  rw [List.zip_append (by simp), List.zip_append (by simp)]
  simp only [List.zip_replicate, min_self, List.zip_cons_cons, List.zip_nil_right]
  simp only [List.filter_append, List.filter_replicate, List.filter_cons, List.filter_nil]
  simp only [toNumeric, Option.map_some', Option.getD_some,
    bigSample_z_one, bigSample_z_negone, bigSample_z_ten]
  simp

theorem dedupTable_eq_self (t : Table) (h : t.rows.Nodup) : dedupTable t = t := by
  unfold dedupTable
  rw [dedupRows_eq_self t.rows h]

/-! ### Idempotence of the whole rule stage -/

theorem mapCol_congr (t : Table) (c : String) (f g : Cell → Cell)
    (h : ∀ x, f x = g x) : t.mapCol c f = t.mapCol c g := by
  have : f = g := funext h
  rw [this]

theorem mapCol_mapCol_self (t : Table) (c : String) (f g : Cell → Cell) (hwf : t.WF) :
    (t.mapCol c f).mapCol c g = t.mapCol c (fun x => g (f x)) := by
  rcases hj : colIdx t.cols c with _ | j
  · simp only [Table.mapCol, hj]
  · have hjl := colIdx_lt_length t.cols c j hj
    simp only [Table.mapCol, hj, List.map_map]
    congr 1
    apply List.map_congr_left
    intro r hr
    have hlen : j < r.length := by rw [hwf r hr]; exact hjl
    simp only [Function.comp_apply, List.getD_eq_getElem?_getD,
      List.getElem?_set_self hlen, Option.getD_some, List.set_set]

theorem mapCol_comm (t : Table) (c c' : String) (f f' : Cell → Cell) (h : c ≠ c') :
    (t.mapCol c f).mapCol c' f' = (t.mapCol c' f').mapCol c f := by
  by_cases hc : c ∈ t.cols
  · by_cases hc' : c' ∈ t.cols
    · obtain ⟨j, hj⟩ := colIdx_mem _ _ hc
      obtain ⟨j', hj'⟩ := colIdx_mem _ _ hc'
      have hne : j ≠ j' := by
        intro he
        have h1 := colIdx_get t.cols c j hj
        have h2 := colIdx_get t.cols c' j' hj'
        rw [he, h2] at h1
        exact h (Option.some.inj h1).symm
      simp only [Table.mapCol, hj, hj', List.map_map]
      congr 1
      apply List.map_congr_left
      intro r _
      simp only [Function.comp_apply, List.getD_eq_getElem?_getD,
        List.getElem?_set_ne hne, List.getElem?_set_ne (Ne.symm hne)]
      exact List.set_comm _ _ r hne
    · rw [mapCol_of_not_mem t c' f' hc',
        mapCol_of_not_mem (t.mapCol c f) c' f' (by rw [cols_mapCol]; exact hc')]
  · rw [mapCol_of_not_mem t c f hc,
      mapCol_of_not_mem (t.mapCol c' f') c f (by rw [cols_mapCol]; exact hc)]

theorem mapCol_applyRules_comm (rules : List (String × (Cell → Cell))) (c : String)
    (f : Cell → Cell) (h : ∀ p ∈ rules, p.1 ≠ c) :
    ∀ t : Table, (applyRules rules t).mapCol c f = applyRules rules (t.mapCol c f) := by
  induction rules with
  | nil => intro t; rfl
  | cons p r ih =>
    intro t
    have hpc : p.1 ≠ c := h p (List.mem_cons_self p r)
    have hr : ∀ q ∈ r, q.1 ≠ c := fun q hq => h q (List.mem_cons_of_mem p hq)
    simp only [applyRules, List.foldl_cons]
    have step := ih hr (t.mapCol p.1 p.2)
    simp only [applyRules] at step
    rw [step, mapCol_comm t p.1 c p.2 f hpc]

theorem wf_applyRules (rules : List (String × (Cell → Cell))) :
    ∀ t : Table, t.WF → (applyRules rules t).WF := by
  induction rules with
  | nil => intro t hwf; exact hwf
  | cons p r ih =>
    intro t hwf
    simp only [applyRules, List.foldl_cons]
    exact ih (t.mapCol p.1 p.2) (wf_mapCol t p.1 p.2 hwf)

theorem applyRules_idem (rules : List (String × (Cell → Cell)))
    (hid : ∀ (c : String) (f : Cell → Cell), (c, f) ∈ rules → ∀ x, f (f x) = f x)
    (hnd : (rules.map Prod.fst).Nodup) :
    ∀ t : Table, t.WF → applyRules rules (applyRules rules t) = applyRules rules t := by
  induction rules with
  | nil => intro t _; rfl
  | cons p r ih =>
    obtain ⟨c, f⟩ := p
    intro t hwf
    have hpnotin : ∀ q ∈ r, q.1 ≠ c := by
      intro q hq he
      have h1 := (List.nodup_cons.mp hnd).1
      have h2 : q.1 ∈ r.map Prod.fst := List.mem_map_of_mem Prod.fst hq
      rw [he] at h2
      exact h1 h2
    have hndr : (r.map Prod.fst).Nodup := (List.nodup_cons.mp hnd).2
    have hidr : ∀ (c' : String) (f' : Cell → Cell), (c', f') ∈ r → ∀ x, f' (f' x) = f' x :=
      fun c' f' hq => hid c' f' (List.mem_cons_of_mem _ hq)
    have hidp : ∀ x, f (f x) = f x := hid c f (List.mem_cons_self _ r)
    have hmerge : ((t.mapCol c f).mapCol c f) = t.mapCol c f := by
      rw [mapCol_mapCol_self t c f f hwf]
      exact mapCol_congr t c _ _ hidp
    have cons_eq : ∀ (q : String × (Cell → Cell)) (rs : List (String × (Cell → Cell)))
        (u : Table), applyRules (q :: rs) u = applyRules rs (u.mapCol q.1 q.2) := by
      intro q rs u
      simp [applyRules]
    rw [cons_eq (c, f) r t, cons_eq (c, f) r (applyRules r (t.mapCol c f)),
      mapCol_applyRules_comm r c f hpnotin (t.mapCol c f), hmerge]
    exact ih hidr hndr (t.mapCol c f) (wf_mapCol t c f hwf)

theorem nodup_dedupAux (rows : List Row) :
    ∀ seen, (dedupAux seen rows).Nodup ∧ ∀ r ∈ dedupAux seen rows, r ∉ seen := by
  induction rows with
  | nil => intro seen; exact ⟨List.nodup_nil, by simp [dedupAux]⟩
  | cons a rs ih =>
    intro seen
    unfold dedupAux
    by_cases ha : a ∈ seen
    · rw [if_pos ha]
      exact ih seen
    · rw [if_neg ha]
      obtain ⟨hnd, hnin⟩ := ih (a :: seen)
      constructor
      · rw [List.nodup_cons]
        constructor
        · intro hmem
          exact hnin a hmem (List.mem_cons_self a seen)
        · exact hnd
      · intro r hr
        rcases List.mem_cons.mp hr with rfl | hr'
        · exact ha
        · intro hrs
          exact hnin r hr' (List.mem_cons_of_mem a hrs)

theorem dedupRows_idem (rows : List Row) : dedupRows (dedupRows rows) = dedupRows rows :=
  dedupRows_eq_self (dedupRows rows) (nodup_dedupAux rows []).1

theorem cleanData_eq_fill_applyRules (df : Table) :
    cleanData df = cholesterolFill (applyRules cleanRules (dedupTable df)) := by
  rw [cleanData_pipeline]
  rfl

/-! ### The claims -/

/-- C1: for every table containing a Cholesterol column, `clean_data` coerces
each Cholesterol value of the (duplicate-free) table to a number, replaces
every value outside [50, 400] with missing, and fills every missing slot with
the median of the values that remain valid after the nulling; on a table with
no duplicate rows this is exactly the stated column transformation, and on
the column [100, 200, 300, 9999, missing] it produces
[100, 200, 300, 200, 200]. -/
theorem cleanData_cholesterol_correct (t : Table) (hwf : t.WF)
    (hm : "Cholesterol" ∈ t.cols) :
    ((cleanData t).col "Cholesterol" = cholColumnSpec ((dedupTable t).col "Cholesterol")) ∧
    (t.rows.Nodup → (cleanData t).col "Cholesterol" = cholColumnSpec (t.col "Cholesterol")) ∧
    cholColumnSpec [.num 100, .num 200, .num 300, .num 9999, .missing]
      = [.num 100, .num 200, .num 300, .num 200, .num 200] := by
  refine ⟨col_cleanData_chol t hwf hm, ?_, by with_unfolding_all decide⟩
  intro hnd
  rw [col_cleanData_chol t hwf hm, dedupTable_eq_self t hnd]

/-- Witness for C1: the worked five-value example, via the theorem. -/
theorem cleanData_cholesterol_correct_witness :
    (cleanData ⟨["Cholesterol"],
        [[.num 100], [.num 200], [.num 300], [.num 9999], [.missing]]⟩).col "Cholesterol"
      = [.num 100, .num 200, .num 300, .num 200, .num 200] := by
  have h := (cleanData_cholesterol_correct ⟨["Cholesterol"],
      [[.num 100], [.num 200], [.num 300], [.num 9999], [.missing]]⟩
      (by decide) (by decide)).2.1 (by with_unfolding_all decide)
  rw [h]
  with_unfolding_all decide

/-- C2: for every table containing the target column, `detect_anomalies`
keeps all columns and returns exactly the rows whose value in that column
coerces to a number whose absolute population standard score exceeds 3.0,
each row aligned with its own cell (original row identity preserved). -/
theorem detectAnomalies_correct (df : Table) (column : String) (hm : column ∈ df.cols) :
    (detectAnomalies df column).1.cols = df.cols ∧
      (detectAnomalies df column).1.rows = anomalousRows df column :=
  detectAnomalies_spec df column hm

/-- Witness for C2: on 100 values of population mean 0 and standard deviation
1 plus the value 10 (ten standard deviations out), exactly that row returns. -/
theorem detectAnomalies_correct_witness :
    (detectAnomalies bigTable "Cholesterol").1.rows = [[Cell.num 10]] := by
  rw [(detectAnomalies_correct bigTable "Cholesterol" (by decide)).2]
  exact bigTable_anomalousRows

/-- C3: `clean_data` is duplicate removal, then the six-rule cleaning stage,
then the median fill; the cleaning stage run twice equals the stage run once
(idempotence of every column rule, jointly and individually) and duplicate
removal is idempotent too — only the median fill is excepted; and after one
pass of `clean_data` the Cholesterol column holds no missing value as soon as
at least one input Cholesterol value is valid. -/
theorem cleanData_rules_idempotent :
    (∀ df : Table, cleanData df = cholesterolFill (applyRules cleanRules (dedupTable df))) ∧
    (∀ t : Table, t.WF →
      applyRules cleanRules (applyRules cleanRules t) = applyRules cleanRules t) ∧
    (∀ rows : List Row, dedupRows (dedupRows rows) = dedupRows rows) ∧
    (∀ c : Cell, visitDateRule (visitDateRule c) = visitDateRule c) ∧
    (∀ c : Cell, ageRule (ageRule c) = ageRule c) ∧
    (∀ c : Cell, genderRule (genderRule c) = genderRule c) ∧
    (∀ c : Cell, phoneRule (phoneRule c) = phoneRule c) ∧
    (∀ c : Cell, emailRule (emailRule c) = emailRule c) ∧
    (∀ c : Cell, cholNullRule (cholNullRule c) = cholNullRule c) ∧
    (∀ t : Table, t.WF → "Cholesterol" ∈ t.cols →
      (∃ x ∈ t.col "Cholesterol", isValidChol x = true) →
      ∀ x ∈ (cleanData t).col "Cholesterol", x ≠ .missing) := by
  refine ⟨cleanData_eq_fill_applyRules, ?_, dedupRows_idem, visitDateRule_idem, ageRule_idem,
    genderRule_idem, phoneRule_idem, emailRule_idem, cholNullRule_idem,
    cleanData_chol_no_missing⟩
  intro t hwf
  refine applyRules_idem cleanRules ?_ (by decide) t hwf
  intro c f hmem
  simp only [cleanRules, List.mem_cons, List.not_mem_nil, or_false, Prod.mk.injEq] at hmem
  rcases hmem with ⟨rfl, rfl⟩ | ⟨rfl, rfl⟩ | ⟨rfl, rfl⟩ | ⟨rfl, rfl⟩ | ⟨rfl, rfl⟩ | ⟨rfl, rfl⟩
  · exact visitDateRule_idem
  · exact ageRule_idem
  · exact genderRule_idem
  · exact phoneRule_idem
  · exact emailRule_idem
  · exact cholNullRule_idem

/-- Witness for C3: the cleaning stage applied twice to a concrete table, a
rule applied twice at a concrete cell, and the filled Cholesterol column of
the worked example has no missing value. -/
theorem cleanData_rules_idempotent_witness :
    applyRules cleanRules (applyRules cleanRules ⟨["Gender"], [[.str "M "]]⟩)
        = applyRules cleanRules ⟨["Gender"], [[.str "M "]]⟩ ∧
    genderRule (genderRule (.str "M ")) = genderRule (.str "M ") ∧
    (∀ x ∈ (cleanData ⟨["Cholesterol"],
        [[.num 100], [.num 200], [.num 300], [.num 9999], [.missing]]⟩).col "Cholesterol",
      x ≠ .missing) :=
  ⟨cleanData_rules_idempotent.2.1 ⟨["Gender"], [[.str "M "]]⟩ (by decide),
   cleanData_rules_idempotent.2.2.2.2.2.1 (.str "M "),
   cleanData_rules_idempotent.2.2.2.2.2.2.2.2.2 _ (by decide) (by decide)
     ⟨.num 100, by with_unfolding_all decide, by with_unfolding_all decide⟩⟩

/-- C4: for every table containing an Age column, `clean_data` coerces each
Age value to a number, turns coercion failures into missing, turns numeric
values outside [0, 120] into missing, and leaves values strictly inside
unchanged with their numeric value preserved. -/
theorem cleanData_age_correct (t : Table) (hwf : t.WF) (hm : "Age" ∈ t.cols) :
    ((cleanData t).col "Age" = ((dedupTable t).col "Age").map ageRule) ∧
    (t.rows.Nodup → (cleanData t).col "Age" = (t.col "Age").map ageRule) ∧
    (∀ c : Cell, toNumeric c = none → ageRule c = .missing) ∧
    (∀ q : ℚ, q < 0 ∨ 120 < q → ageRule (.num q) = .missing) ∧
    (∀ c : Cell, ∀ q : ℚ, toNumeric c = some q → 0 < q → q < 120 → ageRule c = .num q) := by
  refine ⟨col_cleanData_age t hwf hm, ?_, ?_, ?_, ?_⟩
  · intro hnd
    rw [col_cleanData_age t hwf hm, dedupTable_eq_self t hnd]
  · intro c hc
    simp only [ageRule, hc]
  · intro q hq
    simp only [ageRule, toNumeric]
    rw [if_pos hq]
  · intro c q hc h0 h1
    simp only [ageRule, hc]
    rw [if_neg]
    push_neg
    exact ⟨le_of_lt h0, le_of_lt h1⟩

/-- Witness for C4: a concrete Age column with a valid, an out-of-range, an
unparseable and a missing entry. -/
theorem cleanData_age_correct_witness :
    (cleanData ⟨["Age"], [[.num 30], [.num 150], [.str "abc"], [.missing]]⟩).col "Age"
      = [.num 30, .missing, .missing, .missing] := by
  have h := (cleanData_age_correct ⟨["Age"], [[.num 30], [.num 150], [.str "abc"], [.missing]]⟩
      (by decide) (by decide)).2.1 (by with_unfolding_all decide)
  rw [h]
  with_unfolding_all decide

/-- C5: for every table containing a Gender column, `clean_data` trims and
lower-cases each value, maps "m"/"f" to "male"/"female", and replaces any
resulting value outside {"male", "female"} with missing; the spec's concrete
examples behave as stated. -/
theorem cleanData_gender_correct (t : Table) (hwf : t.WF) (hm : "Gender" ∈ t.cols) :
    ((cleanData t).col "Gender" = ((dedupTable t).col "Gender").map genderRule) ∧
    (t.rows.Nodup → (cleanData t).col "Gender" = (t.col "Gender").map genderRule) ∧
    genderRule (.str "m") = .str "male" ∧
    genderRule (.str "f") = .str "female" ∧
    genderRule (.str "M ") = .str "male" ∧
    genderRule (.str " f") = .str "female" ∧
    genderRule (.str "Male") = .str "male" ∧
    genderRule (.str "FEMALE") = .str "female" ∧
    genderRule (.str "unknown") = .missing ∧
    genderRule (.str "") = .missing ∧
    genderRule (.str "x") = .missing ∧
    (∀ s : String,
      (if pyLower (pyStrip s) = "m" then "male"
       else if pyLower (pyStrip s) = "f" then "female"
       else pyLower (pyStrip s)) ≠ "male" →
      (if pyLower (pyStrip s) = "m" then "male"
       else if pyLower (pyStrip s) = "f" then "female"
       else pyLower (pyStrip s)) ≠ "female" →
      genderRule (.str s) = .missing) := by
  refine ⟨col_cleanData_gender t hwf hm, ?_, by decide, by decide, by decide, by decide,
    by decide, by decide, by decide, by decide, by decide, ?_⟩
  · intro hnd
    rw [col_cleanData_gender t hwf hm, dedupTable_eq_self t hnd]
  · intro s h1 h2
    simp only [genderRule, cellToStr]
    rw [if_neg]
    exact fun hc => hc.elim h1 h2

/-- Witness for C5: the spec's Gender examples, cleaned in one table. -/
theorem cleanData_gender_correct_witness :
    (cleanData ⟨["Gender"], [[.str "M "], [.str " f"], [.str "Male"], [.str "FEMALE"],
        [.str "unknown"], [.str ""], [.str "x"], [.missing]]⟩).col "Gender"
      = [.str "male", .str "female", .str "male", .str "female",
         .missing, .missing, .missing, .missing] := by
  have h := (cleanData_gender_correct ⟨["Gender"], [[.str "M "], [.str " f"], [.str "Male"],
      [.str "FEMALE"], [.str "unknown"], [.str ""], [.str "x"], [.missing]]⟩
      (by decide) (by decide)).2.1 (by decide)
  rw [h]
  with_unfolding_all decide

/-- C6: for every table containing a Phone Number column, `clean_data` strips
every non-digit character and replaces every result whose digit count lies
outside [7, 15] with missing; the spec's concrete examples behave as stated. -/
theorem cleanData_phone_correct (t : Table) (hwf : t.WF) (hm : "Phone Number" ∈ t.cols) :
    ((cleanData t).col "Phone Number" = ((dedupTable t).col "Phone Number").map phoneRule) ∧
    (t.rows.Nodup → (cleanData t).col "Phone Number" = (t.col "Phone Number").map phoneRule) ∧
    phoneRule (.str "(555) 123-4567") = .str "5551234567" ∧
    phoneRule (.str "123") = .missing ∧
    phoneRule (.str "abc") = .missing ∧
    (∀ s : String, (strDigits s).data.length < 7 ∨ 15 < (strDigits s).data.length →
      phoneRule (.str s) = .missing) ∧
    (∀ s : String, 7 ≤ (strDigits s).data.length → (strDigits s).data.length ≤ 15 →
      phoneRule (.str s) = .str (strDigits s)) := by
  refine ⟨col_cleanData_phone t hwf hm, ?_, by decide, by decide, by decide, ?_, ?_⟩
  · intro hnd
    rw [col_cleanData_phone t hwf hm, dedupTable_eq_self t hnd]
  · intro s h
    simp only [phoneRule, cellToStr]
    rw [if_neg]
    omega
  · intro s h7 h15
    simp only [phoneRule, cellToStr]
    rw [if_pos ⟨h7, h15⟩]

/-- Witness for C6: the spec's phone-number examples, cleaned in one table. -/
theorem cleanData_phone_correct_witness :
    (cleanData ⟨["Phone Number"],
        [[.str "(555) 123-4567"], [.str "123"], [.str "abc"]]⟩).col "Phone Number"
      = [.str "5551234567", .missing, .missing] := by
  have h := (cleanData_phone_correct ⟨["Phone Number"],
      [[.str "(555) 123-4567"], [.str "123"], [.str "abc"]]⟩
      (by decide) (by decide)).2.1 (by decide)
  rw [h]
  with_unfolding_all decide

/-- C7: for every table containing an Email column, `clean_data` replaces
every value whose rendering does not contain "@" with missing, leaves values
containing "@" unchanged, and keeps missing values missing. -/
theorem cleanData_email_correct (t : Table) (hwf : t.WF) (hm : "Email" ∈ t.cols) :
    ((cleanData t).col "Email" = ((dedupTable t).col "Email").map emailRule) ∧
    (t.rows.Nodup → (cleanData t).col "Email" = (t.col "Email").map emailRule) ∧
    (∀ s : String, s.data.contains '@' = false → emailRule (.str s) = .missing) ∧
    (∀ s : String, s.data.contains '@' = true → emailRule (.str s) = .str s) ∧
    emailRule .missing = .missing ∧
    emailRule (.str "a@b.com") = .str "a@b.com" ∧
    emailRule (.str "not-an-email") = .missing := by
  refine ⟨col_cleanData_email t hwf hm, ?_, ?_, ?_, by decide, by decide, by decide⟩
  · intro hnd
    rw [col_cleanData_email t hwf hm, dedupTable_eq_self t hnd]
  · intro s h
    have h2 : '@' ∉ s.data := by simpa using h
    simp [emailRule, cellToStr, h2]
  · intro s h
    simp only [emailRule, cellToStr]
    rw [if_pos h]

/-- Witness for C7: the spec's email examples, cleaned in one table. -/
theorem cleanData_email_correct_witness :
    (cleanData ⟨["Email"], [[.str "a@b.com"], [.str "not-an-email"], [.missing]]⟩).col "Email"
      = [.str "a@b.com", .missing, .missing] := by
  have h := (cleanData_email_correct ⟨["Email"],
      [[.str "a@b.com"], [.str "not-an-email"], [.missing]]⟩
      (by decide) (by decide)).2.1 (by decide)
  rw [h]
  with_unfolding_all decide

/-- C8: for every table and every column name not present in it,
`detect_anomalies` returns normally with an empty table of rows and emits
exactly its diagnostic message. -/
theorem detectAnomalies_absent_column (df : Table) (column : String)
    (h : column ∉ df.cols) :
    detectAnomalies df column
      = (⟨[], []⟩, ["No column " ++ column ++ " for anomaly detection."]) := by
  simp only [detectAnomalies, (colIdx_eq_none_iff df.cols column).mpr h]

/-- Witness for C8: asking a one-column table for a different column. -/
theorem detectAnomalies_absent_column_witness :
    detectAnomalies ⟨["Age"], [[.num 1]]⟩ "Cholesterol"
      = (⟨[], []⟩, ["No column Cholesterol for anomaly detection."]) := by
  rw [detectAnomalies_absent_column ⟨["Age"], [[.num 1]]⟩ "Cholesterol" (by decide)]
  with_unfolding_all decide

/-- C10: on a target column whose non-missing numeric values all coincide
(zero variance, including one or zero valid values), the population variance
is zero — so the float z-scores are NaN, modelled by the first conjunct of
`absZGt3` being unsatisfiable — and `detect_anomalies` returns an empty
row-set without raising. -/
theorem detectAnomalies_degenerate (df : Table) (column : String) (hm : column ∈ df.cols)
    (h : ∀ x ∈ (df.col column).filterMap toNumeric,
         ∀ y ∈ (df.col column).filterMap toNumeric, x = y) :
    popVar ((df.col column).filterMap toNumeric) = 0 ∧
      (detectAnomalies df column).1.rows = [] := by
  refine ⟨popVar_of_const _ h, ?_⟩
  rw [(detectAnomalies_spec df column hm).2]
  exact anomalousRows_nil_of_const df column h

/-- Witness for C10: a constant column with a missing entry. -/
theorem detectAnomalies_degenerate_witness :
    popVar ((Table.col ⟨["Cholesterol"], [[.num 5], [.missing], [.num 5]]⟩
        "Cholesterol").filterMap toNumeric) = 0 ∧
      (detectAnomalies ⟨["Cholesterol"], [[.num 5], [.missing], [.num 5]]⟩
        "Cholesterol").1.rows = [] :=
  detectAnomalies_degenerate ⟨["Cholesterol"], [[.num 5], [.missing], [.num 5]]⟩
    "Cholesterol" (by decide) (by with_unfolding_all decide)

/-- C9: for every column of numeric type, `summary_statistics` reports the
arithmetic mean, a least and a greatest element, and the median and the
25/50/75% percentiles read off a sorted permutation of the non-missing
values by linear interpolation between order statistics. -/
theorem summaryStatistics_correct (df : Table) (c : String) (hm : c ∈ df.cols)
    (hn : isNumericCol (df.col c) = true) :
    ∃ st : ColStats, (summaryStatistics df).lookup c = some st ∧
      (numsOf (df.col c) ≠ [] →
        st.mean = some ((numsOf (df.col c)).sum / ((numsOf (df.col c)).length : ℚ)) ∧
        (∃ m ∈ numsOf (df.col c), st.min = some m ∧ ∀ x ∈ numsOf (df.col c), m ≤ x) ∧
        (∃ m ∈ numsOf (df.col c), st.max = some m ∧ ∀ x ∈ numsOf (df.col c), x ≤ m) ∧
        (∃ s : List ℚ, s.Perm (numsOf (df.col c)) ∧ List.Sorted (· ≤ ·) s ∧
          st.median = medianOfSorted s ∧
          st.q25 = quantileSorted s (1/4) ∧
          st.q50 = quantileSorted s (1/2) ∧
          st.q75 = quantileSorted s (3/4))) := by
  refine ⟨colStatsOf (df.col c), ?_, ?_⟩
  · have hmem : c ∈ df.cols.filter (fun x => isNumericCol (df.col x)) :=
      List.mem_filter.mpr ⟨hm, hn⟩
    exact lookup_map_self (fun x => colStatsOf (df.col x))
      (df.cols.filter (fun x => isNumericCol (df.col x))) c hmem
  · intro hne
    rcases hvn : numsOf (df.col c) with _ | ⟨a, tl⟩
    · exact absurd hvn hne
    · refine ⟨?_, ?_, ?_, ?_⟩
      · simp only [colStatsOf]
        rw [hvn]
        simp [seriesMean]
      · refine ⟨tl.foldl min a, foldl_min_mem tl a, ?_, ?_⟩
        · simp only [colStatsOf, hvn]
          rfl
        · intro x hx
          exact foldl_min_le tl a x hx
      · refine ⟨tl.foldl max a, foldl_max_mem tl a, ?_, ?_⟩
        · simp only [colStatsOf, hvn]
          rfl
        · intro x hx
          exact le_foldl_max tl a x hx
      · refine ⟨(a :: tl).insertionSort (· ≤ ·),
          List.perm_insertionSort _ _, List.sorted_insertionSort _ _, ?_, ?_, ?_, ?_⟩
        · simp only [colStatsOf, hvn]
          rfl
        · simp only [colStatsOf, hvn]
          rfl
        · simp only [colStatsOf, hvn]
          rfl
        · simp only [colStatsOf, hvn]
          rfl

/-- Witness for C9: the column [1, 2, 3, 4] yields mean 5/2, median 5/2,
min 1, max 4 and quartiles 7/4, 5/2, 13/4, and the theorem applies to it. -/
theorem summaryStatistics_correct_witness :
    (summaryStatistics ⟨["Score"], [[.num 1], [.num 2], [.num 3], [.num 4]]⟩).lookup "Score"
        = some ⟨some (5/2), some (5/2), some 1, some 4, some (7/4), some (5/2), some (13/4)⟩
      ∧ ∃ st, (summaryStatistics ⟨["Score"],
          [[.num 1], [.num 2], [.num 3], [.num 4]]⟩).lookup "Score" = some st :=
  ⟨by with_unfolding_all decide,
   (summaryStatistics_correct ⟨["Score"], [[.num 1], [.num 2], [.num 3], [.num 4]]⟩ "Score"
      (by decide) (by with_unfolding_all decide)).elim
     (fun st hst => ⟨st, hst.1⟩)⟩

/-- For positive variance the squared comparison inside `absZGt3` is exactly
the real z-score test of the source, |x − mean| / √variance > 3. -/
theorem absZGt3_iff_real (xs : List ℚ) (x : ℚ) (hv : 0 < popVar xs) :
    absZGt3 xs x = true ↔
      3 < |(x : ℝ) - (popMean xs : ℝ)| / Real.sqrt (popVar xs : ℝ) := by
  have hvR : (0 : ℝ) < (popVar xs : ℝ) := by exact_mod_cast hv
  have hs : 0 < Real.sqrt (popVar xs : ℝ) := Real.sqrt_pos.mpr hvR
  have hsq : (3 * Real.sqrt (popVar xs : ℝ)) ^ 2 < |(x : ℝ) - (popMean xs : ℝ)| ^ 2 ↔
      3 * Real.sqrt (popVar xs : ℝ) < |(x : ℝ) - (popMean xs : ℝ)| :=
    pow_lt_pow_iff_left₀ (by positivity) (abs_nonneg _) (by norm_num)
  have h1 : (3 * Real.sqrt (popVar xs : ℝ)) ^ 2 = 9 * (popVar xs : ℝ) := by
    rw [mul_pow, Real.sq_sqrt hvR.le]
    norm_num
  have h2 : |(x : ℝ) - (popMean xs : ℝ)| ^ 2 = ((x : ℝ) - (popMean xs : ℝ)) ^ 2 := sq_abs _
  unfold absZGt3
  rw [decide_eq_true_eq, lt_div_iff₀ hs, ← hsq, h1, h2]
  constructor
  · rintro ⟨-, hlt⟩
    exact_mod_cast hlt
  · intro hlt
    exact ⟨ne_of_gt hv, by exact_mod_cast hlt⟩
